import Mathlib

/-!
Shallow embedding of `cartographer/mapping/id.h`: the identifier type and the
sparse container `MapById` (a `std::map<int, MapByIndex>` of per-trajectory
ordered maps from position to payload, each with a `can_append_` flag).

`std::map<int, T>` is modelled as an association list `List (Int × T)` kept
strictly sorted by key; `mfind`, `mset`, `memplace`, `merase` and `misLastKey`
model `find`/`at`, `operator[]` write-back, `emplace`, `erase` and the
`std::next(it) == end()` test. Operations that in C++ fail a `CHECK` or throw
`std::out_of_range` return `none`.
-/

/-- Composite identifier (trajectory id, zero-based index), as `NodeId` /
`SubmapId` in id.h. -/
structure NodeId where
  trajectory_id : Int
  node_index : Int
deriving DecidableEq, Repr

/-- Strict lexicographic order on identifiers, as `NodeId::operator<`. -/
def NodeId.Lt (a b : NodeId) : Prop :=
  a.trajectory_id < b.trajectory_id ∨
    (a.trajectory_id = b.trajectory_id ∧ a.node_index < b.node_index)

instance (a b : NodeId) : Decidable (NodeId.Lt a b) := by
  unfold NodeId.Lt; infer_instance

/-- Lookup in an association list modelling `std::map::find` / `at`. -/
def mfind {β : Type} (k : Int) : List (Int × β) → Option β
  | [] => none
  | p :: rest => if k = p.1 then some p.2 else mfind k rest

/-- Insert-or-overwrite, modelling assignment through `std::map::operator[]`. -/
def mset {β : Type} (k : Int) (v : β) : List (Int × β) → List (Int × β)
  | [] => [(k, v)]
  | p :: rest =>
    if k < p.1 then (k, v) :: p :: rest
    else if k = p.1 then (k, v) :: rest
    else p :: mset k v rest

/-- Model of `std::map::emplace`: inserts only when the key is absent; the boolean is
the `.second` of the returned pair (whether insertion took place). -/
def memplace {β : Type} (k : Int) (v : β) : List (Int × β) → List (Int × β) × Bool
  | [] => ([(k, v)], true)
  | p :: rest =>
    if k < p.1 then ((k, v) :: p :: rest, true)
    else if k = p.1 then (p :: rest, false)
    else
      let r := memplace k v rest
      (p :: r.1, r.2)

/-- Model of `std::map::erase` of the iterator returned by `find k`. -/
def merase {β : Type} (k : Int) : List (Int × β) → List (Int × β)
  | [] => []
  | p :: rest => if k = p.1 then rest else p :: merase k rest

/-- Test `std::next(find k) == end()`: the entry found for `k` is the last one. -/
def misLastKey {β : Type} (k : Int) : List (Int × β) → Bool
  | [] => false
  | [p] => decide (k = p.1)
  | p :: q :: rest => if k = p.1 then false else misLastKey k (q :: rest)

/-- Well-formedness of the association-list model of `std::map`: keys strictly
increase, as they do in an ordered map. -/
def MWF {β : Type} (l : List (Int × β)) : Prop :=
  l.Pairwise fun a b => a.1 < b.1

instance {β : Type} (l : List (Int × β)) : Decidable (MWF l) := by
  unfold MWF; infer_instance

/-- Per-trajectory state: `struct MapByIndex` of id.h, a `can_append_` flag
(defaulting to true) and an ordered map position → payload. -/
structure MapByIndex (α : Type) where
  can_append_ : Bool
  data_ : List (Int × α)
deriving DecidableEq, Repr

/-- The sparse container `MapById` of id.h: an ordered map trajectory id →
`MapByIndex`. -/
structure MapById (α : Type) where
  trajectories_ : List (Int × MapByIndex α)
deriving DecidableEq, Repr

/-- The trajectory `operator[]` observes for `t`: the stored one, or a
default-constructed `MapByIndex` (`can_append_ = true`, empty map) when `t`
is not present yet. -/
def getTraj {α : Type} (m : MapById α) (t : Int) : MapByIndex α :=
  (mfind t m.trajectories_).getD ⟨true, []⟩

/-- The index `Append` chooses:
`trajectory.data_.empty() ? 0 : trajectory.data_.rbegin()->first + 1`
(`rbegin` of a `std::map` is its last, i.e. greatest, entry). -/
def nextIndex {α : Type} (tr : MapByIndex α) : Int :=
  match tr.data_.getLast? with
  | none => 0
  | some p => p.1 + 1

/-- Model of `MapById::Append`. `CHECK_GE(trajectory_id, 0)`; `operator[]` creates the
trajectory on demand (default `can_append_ = true`); `CHECK(can_append_)`;
the new index is `rbegin()->first + 1`, or 0 when the trajectory is empty.
A failed CHECK aborts, modelled as `none`. -/
def MapById.Append {α : Type} (m : MapById α) (trajectory_id : Int) (data : α) :
    Option (NodeId × MapById α) :=
  if trajectory_id < 0 then none
  else
    let trajectory := getTraj m trajectory_id
    if trajectory.can_append_ then
      let index := nextIndex trajectory
      some (⟨trajectory_id, index⟩,
        ⟨mset trajectory_id { trajectory with data_ := (memplace index data trajectory.data_).1 }
          m.trajectories_⟩)
    else none

/-- Model of `MapById::Insert`. `operator[]` creates the trajectory on demand, the flag
is unconditionally set to false, and `CHECK(emplace(...).second)` requires the
key to be fresh. No sign check on the trajectory id appears in the source. -/
def MapById.Insert {α : Type} (m : MapById α) (id : NodeId) (data : α) :
    Option (MapById α) :=
  let trajectory := getTraj m id.trajectory_id
  let r := memplace id.node_index data trajectory.data_
  if r.2 then
    some ⟨mset id.trajectory_id ⟨false, r.1⟩ m.trajectories_⟩
  else none

/-- Model of `MapById::Trim`. `trajectories_.at` throws when the trajectory is absent;
`CHECK(it != end)` when the position is absent; when the found entry is the
last one of the trajectory (`std::next(it) == end()`) the flag is set to
false; the entry is erased. -/
def MapById.Trim {α : Type} (m : MapById α) (id : NodeId) : Option (MapById α) :=
  match mfind id.trajectory_id m.trajectories_ with
  | none => none
  | some trajectory =>
    match mfind id.node_index trajectory.data_ with
    | none => none
    | some _ =>
      let can := if misLastKey id.node_index trajectory.data_ then false
                 else trajectory.can_append_
      some ⟨mset id.trajectory_id ⟨can, merase id.node_index trajectory.data_⟩ m.trajectories_⟩

/-- Model of `MapById::at`: lookup through both levels; absence throws, modelled as
`none`. -/
def MapById.atId {α : Type} (m : MapById α) (id : NodeId) : Option α :=
  match mfind id.trajectory_id m.trajectories_ with
  | none => none
  | some trajectory => mfind id.node_index trajectory.data_

/-- The `can_append_` flag the next `Append` would observe: trajectories are
created on demand with the flag true, so a missing trajectory reads as true. -/
def MapById.canAppend {α : Type} (m : MapById α) (t : Int) : Bool :=
  match mfind t m.trajectories_ with
  | none => true
  | some trajectory => trajectory.can_append_

/-- The sequence produced by iterating from `begin()` to `end()`: trajectories
in ascending id order, positions ascending within each, empty trajectories
contributing nothing (`AdvanceToValidDataIterator`). -/
def MapById.toList {α : Type} (m : MapById α) : List (NodeId × α) :=
  m.trajectories_.flatMap fun p => p.2.data_.map fun q => (⟨p.1, q.1⟩, q.2)

/-- Representation invariant: both map levels are sorted, as `std::map`
guarantees. -/
def MapById.WF {α : Type} (m : MapById α) : Prop :=
  MWF m.trajectories_ ∧ ∀ p ∈ m.trajectories_, MWF p.2.data_

instance {α : Type} (m : MapById α) : Decidable (m.WF) := by
  unfold MapById.WF; infer_instance

/-- The three mutating operations of the container. -/
inductive Op (α : Type) where
  | append : Int → α → Op α
  | insert : NodeId → α → Op α
  | trim : NodeId → Op α
deriving DecidableEq, Repr

/-- One operation applied to a state; `none` when the operation is a contract
violation (the C++ process aborts). -/
def applyOp {α : Type} (m : MapById α) : Op α → Option (MapById α)
  | .append t d => (m.Append t d).map Prod.snd
  | .insert id d => m.Insert id d
  | .trim id => m.Trim id

/-- A sequence of operations applied from a given state, each one succeeding. -/
def runFrom {α : Type} (m : MapById α) : List (Op α) → Option (MapById α)
  | [] => some m
  | op :: ops => (applyOp m op).bind fun m' => runFrom m' ops

/-- A sequence of operations applied to the fresh, empty container. -/
def run {α : Type} (ops : List (Op α)) : Option (MapById α) :=
  runFrom ⟨[]⟩ ops

/-- A sequence of `Append` calls to one trajectory, collecting the returned
identifiers. -/
def appendAll {α : Type} (m : MapById α) (t : Int) : List α → Option (List NodeId × MapById α)
  | [] => some ([], m)
  | d :: ds =>
    (m.Append t d).bind fun r =>
      (appendAll r.2 t ds).map fun s => (r.1 :: s.1, s.2)

/-! ### Lemmas about the association-list model of `std::map` -/

theorem mfind_some_mem {β : Type} {k : Int} {v : β} {l : List (Int × β)}
    (h : mfind k l = some v) : (k, v) ∈ l := by
  induction l with
  | nil => simp [mfind] at h
  | cons q rest ih =>
    rw [mfind] at h
    by_cases h2 : k = q.1
    · rw [if_pos h2] at h
      have hq : (k, v) = q := by
        obtain ⟨q1, q2⟩ := q
        simp only at h2
        simp only [Option.some_inj] at h
        simp [h2, h.symm]
      rw [hq]
      exact List.mem_cons_self _ _
    · rw [if_neg h2] at h
      exact List.mem_cons_of_mem _ (ih h)

theorem mfind_eq_none_iff {β : Type} {k : Int} {l : List (Int × β)} :
    mfind k l = none ↔ ∀ p ∈ l, p.1 ≠ k := by
  induction l with
  | nil => simp [mfind]
  | cons q rest ih =>
    rw [mfind]
    by_cases h2 : k = q.1
    · simp [h2]
    · rw [if_neg h2, ih]
      simp only [List.mem_cons, forall_eq_or_imp]
      constructor
      · intro hr; exact ⟨fun hq => h2 hq.symm, hr⟩
      · intro hr; exact hr.2

theorem mem_mfind {β : Type} {k : Int} {v : β} {l : List (Int × β)}
    (hwf : MWF l) (h : (k, v) ∈ l) : mfind k l = some v := by
  unfold MWF at hwf
  induction l with
  | nil => simp at h
  | cons q rest ih =>
    rcases List.mem_cons.mp h with h' | h'
    · rw [← h']; simp [mfind]
    · have hq : q.1 < k := List.rel_of_pairwise_cons hwf h'
      rw [mfind, if_neg (by omega : ¬ k = q.1)]
      exact ih (List.pairwise_cons.mp hwf).2 h'

theorem mfind_mset_self {β : Type} (k : Int) (v : β) (l : List (Int × β)) :
    mfind k (mset k v l) = some v := by
  induction l with
  | nil => simp [mset, mfind]
  | cons p rest ih =>
    by_cases h1 : k < p.1
    · simp [mset, h1, mfind]
    · by_cases h2 : k = p.1
      · simp [mset, h1, h2, mfind]
      · simp [mset, h1, h2, mfind, ih]

theorem mfind_mset_ne {β : Type} {k k' : Int} (h : k ≠ k') (v : β) (l : List (Int × β)) :
    mfind k (mset k' v l) = mfind k l := by
  induction l with
  | nil => simp [mset, mfind, h]
  | cons p rest ih =>
    by_cases h1 : k' < p.1
    · simp [mset, h1, mfind, h]
    · by_cases h2 : k' = p.1
      · subst h2
        simp [mset, mfind, h]
      · simp [mset, h1, h2, mfind, ih]

theorem mem_mset {β : Type} {p : Int × β} {k : Int} {v : β} {l : List (Int × β)}
    (h : p ∈ mset k v l) : p = (k, v) ∨ p ∈ l := by
  induction l with
  | nil => simpa [mset] using h
  | cons q rest ih =>
    by_cases h1 : k < q.1
    · simp only [mset, if_pos h1, List.mem_cons] at h
      simp only [List.mem_cons]
      tauto
    · by_cases h2 : k = q.1
      · simp only [mset, if_neg h1, if_pos h2, List.mem_cons] at h
        simp only [List.mem_cons]
        tauto
      · simp only [mset, if_neg h1, if_neg h2, List.mem_cons] at h
        rcases h with h | h
        · right; simp [h]
        · rcases ih h with h' | h'
          · left; exact h'
          · right; simp [h']

theorem MWF_mset {β : Type} {l : List (Int × β)} (k : Int) (v : β) (h : MWF l) :
    MWF (mset k v l) := by
  unfold MWF at h ⊢
  induction l with
  | nil => simp [mset]
  | cons q rest ih =>
    by_cases h1 : k < q.1
    · simp only [mset, if_pos h1]
      refine List.Pairwise.cons ?_ h
      intro a ha
      rcases List.mem_cons.mp ha with h' | h'
      · rw [h']; exact h1
      · exact lt_trans h1 (List.rel_of_pairwise_cons h h')
    · by_cases h2 : k = q.1
      · simp only [mset, if_neg h1, if_pos h2]
        refine List.Pairwise.cons ?_ (List.pairwise_cons.mp h).2
        intro a ha
        rw [h2]
        exact List.rel_of_pairwise_cons h ha
      · simp only [mset, if_neg h1, if_neg h2]
        refine List.Pairwise.cons ?_ (ih (List.pairwise_cons.mp h).2)
        intro a ha
        rcases mem_mset ha with h' | h'
        · rw [h']
          simp only
          omega
        · exact List.rel_of_pairwise_cons h h'

theorem memplace_of_find_none {β : Type} {k : Int} {l : List (Int × β)} (v : β)
    (h : mfind k l = none) : memplace k v l = (mset k v l, true) := by
  induction l with
  | nil => simp [memplace, mset]
  | cons q rest ih =>
    rw [mfind] at h
    by_cases h2 : k = q.1
    · simp [h2] at h
    · rw [if_neg h2] at h
      by_cases h1 : k < q.1
      · simp [memplace, mset, h1]
      · simp [memplace, mset, h1, h2, ih h]

theorem memplace_snd_false {β : Type} {k : Int} {l : List (Int × β)} (v : β)
    (hwf : MWF l) (h : (mfind k l).isSome = true) : (memplace k v l).2 = false := by
  unfold MWF at hwf
  induction l with
  | nil => simp [mfind] at h
  | cons q rest ih =>
    by_cases h2 : k = q.1
    · subst h2
      simp [memplace, lt_irrefl]
    · rw [mfind, if_neg h2] at h
      by_cases h1 : k < q.1
      · exfalso
        obtain ⟨w, hw⟩ := Option.isSome_iff_exists.mp h
        have hmem := mfind_some_mem hw
        have hlt : q.1 < k := List.rel_of_pairwise_cons hwf hmem
        omega
      · simp only [memplace, if_neg h1, if_neg h2]
        exact ih (List.pairwise_cons.mp hwf).2 h

theorem mem_memplace {β : Type} {p : Int × β} {k : Int} {v : β} {l : List (Int × β)}
    (h : p ∈ (memplace k v l).1) : p = (k, v) ∨ p ∈ l := by
  induction l with
  | nil => simpa [memplace] using h
  | cons q rest ih =>
    by_cases h1 : k < q.1
    · simp only [memplace, if_pos h1, List.mem_cons] at h
      simp only [List.mem_cons]
      tauto
    · by_cases h2 : k = q.1
      · simp only [memplace, if_neg h1, if_pos h2, List.mem_cons] at h
        simp only [List.mem_cons]
        tauto
      · simp only [memplace, if_neg h1, if_neg h2, List.mem_cons] at h
        rcases h with h | h
        · right; simp [h]
        · rcases ih h with h' | h'
          · left; exact h'
          · right; simp [h']

theorem MWF_memplace {β : Type} {l : List (Int × β)} (k : Int) (v : β) (h : MWF l) :
    MWF (memplace k v l).1 := by
  unfold MWF at h ⊢
  induction l with
  | nil => simp [memplace]
  | cons q rest ih =>
    by_cases h1 : k < q.1
    · simp only [memplace, if_pos h1]
      refine List.Pairwise.cons ?_ h
      intro a ha
      rcases List.mem_cons.mp ha with h' | h'
      · rw [h']; exact h1
      · exact lt_trans h1 (List.rel_of_pairwise_cons h h')
    · by_cases h2 : k = q.1
      · simp only [memplace, if_neg h1, if_pos h2]
        exact h
      · simp only [memplace, if_neg h1, if_neg h2]
        refine List.Pairwise.cons ?_ (ih (List.pairwise_cons.mp h).2)
        intro a ha
        rcases mem_memplace ha with h' | h'
        · rw [h']
          simp only
          omega
        · exact List.rel_of_pairwise_cons h h'

theorem memplace_append {β : Type} {k : Int} {l : List (Int × β)} (v : β)
    (h : ∀ p ∈ l, p.1 < k) : memplace k v l = (l ++ [(k, v)], true) := by
  induction l with
  | nil => simp [memplace]
  | cons q rest ih =>
    have hq : q.1 < k := h q (List.mem_cons_self _ _)
    simp only [memplace, if_neg (by omega : ¬ k < q.1), if_neg (by omega : ¬ k = q.1)]
    rw [ih (fun p hp => h p (List.mem_cons_of_mem _ hp))]
    simp

theorem mem_merase {β : Type} {p : Int × β} {k : Int} {l : List (Int × β)}
    (h : p ∈ merase k l) : p ∈ l := by
  induction l with
  | nil => simp [merase] at h
  | cons q rest ih =>
    by_cases h2 : k = q.1
    · simp only [merase, if_pos h2] at h
      exact List.mem_cons_of_mem _ h
    · simp only [merase, if_neg h2, List.mem_cons] at h
      rcases h with h' | h'
      · rw [h']; exact List.mem_cons_self _ _
      · exact List.mem_cons_of_mem _ (ih h')

theorem MWF_merase {β : Type} (k : Int) {l : List (Int × β)} (hwf : MWF l) :
    MWF (merase k l) := by
  unfold MWF at hwf ⊢
  induction l with
  | nil => simp [merase]
  | cons q rest ih =>
    by_cases h2 : k = q.1
    · simp only [merase, if_pos h2]
      exact (List.pairwise_cons.mp hwf).2
    · simp only [merase, if_neg h2]
      refine List.Pairwise.cons ?_ (ih (List.pairwise_cons.mp hwf).2)
      intro a ha
      exact List.rel_of_pairwise_cons hwf (mem_merase ha)

theorem mfind_merase_self {β : Type} (k : Int) {l : List (Int × β)} (hwf : MWF l) :
    mfind k (merase k l) = none := by
  unfold MWF at hwf
  induction l with
  | nil => simp [merase, mfind]
  | cons q rest ih =>
    by_cases h2 : k = q.1
    · simp only [merase, if_pos h2]
      rw [mfind_eq_none_iff]
      intro p hp
      have := List.rel_of_pairwise_cons hwf hp
      omega
    · simp only [merase, if_neg h2]
      rw [mfind, if_neg h2]
      exact ih (List.pairwise_cons.mp hwf).2

theorem mfind_merase_ne {β : Type} {k k' : Int} (h : k ≠ k') (l : List (Int × β)) :
    mfind k (merase k' l) = mfind k l := by
  induction l with
  | nil => simp [merase]
  | cons q rest ih =>
    by_cases h2 : k' = q.1
    · simp only [merase, if_pos h2]
      rw [mfind, if_neg (by omega : ¬ k = q.1)]
    · simp only [merase, if_neg h2]
      rw [mfind, mfind]
      by_cases h3 : k = q.1
      · simp [h3]
      · simp only [if_neg h3]
        exact ih

theorem getLast_max {β : Type} {l : List (Int × β)} {p : Int × β} (hwf : MWF l)
    (h : l.getLast? = some p) : ∀ q ∈ l, q.1 ≤ p.1 := by
  unfold MWF at hwf
  induction l with
  | nil => simp at h
  | cons a rest ih =>
    cases rest with
    | nil =>
      simp only [List.getLast?_singleton, Option.some_inj] at h
      intro q hq
      simp only [List.mem_singleton] at hq
      rw [hq, h]
    | cons b rest' =>
      rw [List.getLast?_cons_cons] at h
      intro q hq
      rcases List.mem_cons.mp hq with h' | h'
      · have h1 : a.1 < b.1 := List.rel_of_pairwise_cons hwf (List.mem_cons_self _ _)
        have h2 : b.1 ≤ p.1 :=
          ih (List.pairwise_cons.mp hwf).2 h b (List.mem_cons_self _ _)
        rw [h']
        omega
      · exact ih (List.pairwise_cons.mp hwf).2 h q h'

theorem misLastKey_true_of_last {β : Type} {l : List (Int × β)} {p : Int × β}
    (hwf : MWF l) (h : l.getLast? = some p) : misLastKey p.1 l = true := by
  unfold MWF at hwf
  induction l with
  | nil => simp at h
  | cons a rest ih =>
    cases rest with
    | nil =>
      simp only [List.getLast?_singleton, Option.some_inj] at h
      simp [misLastKey, h]
    | cons b rest' =>
      rw [List.getLast?_cons_cons] at h
      have hpm : p ∈ b :: rest' := List.mem_of_mem_getLast? h
      have hlt : a.1 < p.1 := List.rel_of_pairwise_cons hwf hpm
      simp only [misLastKey, if_neg (by omega : ¬ p.1 = a.1)]
      exact ih (List.pairwise_cons.mp hwf).2 h

theorem misLastKey_false_of_gt {β : Type} {l : List (Int × β)} {k : Int} (j : Int) (w : β)
    (hwf : MWF l) (hm : (j, w) ∈ l) (hlt : k < j) : misLastKey k l = false := by
  unfold MWF at hwf
  induction l generalizing j w with
  | nil => simp at hm
  | cons a rest ih =>
    cases rest with
    | nil =>
      simp only [List.mem_singleton] at hm
      have ha : a.1 = j := by rw [← hm]
      simp only [misLastKey, decide_eq_false_iff_not]
      omega
    | cons b rest' =>
      by_cases hk : k = a.1
      · simp [misLastKey, hk]
      · simp only [misLastKey, if_neg hk]
        rcases List.mem_cons.mp hm with h' | h'
        · have ha : a.1 = j := by rw [← h']
          have hab : a.1 < b.1 := List.rel_of_pairwise_cons hwf (List.mem_cons_self _ _)
          exact ih b.1 b.2 (List.pairwise_cons.mp hwf).2
            (by simp : (b.1, b.2) ∈ b :: rest') (by omega)
        · exact ih j w (List.pairwise_cons.mp hwf).2 h' hlt

theorem getLast_of_max {β : Type} {l : List (Int × β)} {k : Int} {v : β} (hwf : MWF l)
    (hm : (k, v) ∈ l) (hmax : ∀ q ∈ l, q.1 ≤ k) : l.getLast? = some (k, v) := by
  have hne : l ≠ [] := by
    intro hl
    rw [hl] at hm
    simp at hm
  obtain ⟨p, hp⟩ : ∃ p, l.getLast? = some p := by
    cases hl : l.getLast? with
    | none => exact absurd (List.getLast?_eq_none_iff.mp hl) hne
    | some p => exact ⟨p, rfl⟩
  have hpm : p ∈ l := List.mem_of_mem_getLast? hp
  have h1 : p.1 ≤ k := hmax p hpm
  have h2 : k ≤ p.1 := getLast_max hwf hp (k, v) hm
  have hk : p.1 = k := le_antisymm h1 h2
  have e1 := mem_mfind hwf hm
  have e2 := mem_mfind hwf (show (p.1, p.2) ∈ l by simpa using hpm)
  rw [hk, e1, Option.some_inj] at e2
  rw [hp]
  obtain ⟨p1, p2⟩ := p
  simp only at hk e2
  rw [hk, ← e2]

/-! ### Bridge and inversion lemmas for the container operations -/

theorem canAppend_eq {α : Type} (m : MapById α) (t : Int) :
    m.canAppend t = (getTraj m t).can_append_ := by
  unfold MapById.canAppend getTraj
  cases mfind t m.trajectories_ <;> rfl

theorem atId_eq {α : Type} (m : MapById α) (id : NodeId) :
    m.atId id = mfind id.node_index (getTraj m id.trajectory_id).data_ := by
  unfold MapById.atId getTraj
  cases mfind id.trajectory_id m.trajectories_ with
  | none => simp [mfind]
  | some tr => rfl

theorem Append_inv {α : Type} {m : MapById α} {t : Int} {d : α} {r : NodeId × MapById α}
    (h : m.Append t d = some r) :
    0 ≤ t ∧ (getTraj m t).can_append_ = true ∧
      r = (⟨t, nextIndex (getTraj m t)⟩,
        ⟨mset t ⟨true, (memplace (nextIndex (getTraj m t)) d (getTraj m t).data_).1⟩
          m.trajectories_⟩) := by
  by_cases h0 : t < 0
  · simp [MapById.Append, h0] at h
  · by_cases h1 : (getTraj m t).can_append_ = true
    · refine ⟨by omega, h1, ?_⟩
      simp only [MapById.Append, if_neg h0, h1, if_true] at h
      exact (Option.some_inj.mp h).symm
    · exfalso
      rw [Bool.not_eq_true] at h1
      simp only [MapById.Append, if_neg h0, h1] at h
      simp at h

theorem Append_eq {α : Type} (m : MapById α) (t : Int) (d : α) (h0 : 0 ≤ t)
    (h1 : (getTraj m t).can_append_ = true) :
    m.Append t d = some (⟨t, nextIndex (getTraj m t)⟩,
      ⟨mset t ⟨true, (memplace (nextIndex (getTraj m t)) d (getTraj m t).data_).1⟩
        m.trajectories_⟩) := by
  simp only [MapById.Append, if_neg (by omega : ¬ t < 0), h1, if_true]

theorem Insert_inv {α : Type} {m : MapById α} {id : NodeId} {d : α} {m' : MapById α}
    (h : m.Insert id d = some m') :
    (memplace id.node_index d (getTraj m id.trajectory_id).data_).2 = true ∧
      m' = ⟨mset id.trajectory_id
        ⟨false, (memplace id.node_index d (getTraj m id.trajectory_id).data_).1⟩
        m.trajectories_⟩ := by
  by_cases h1 : (memplace id.node_index d (getTraj m id.trajectory_id).data_).2 = true
  · refine ⟨h1, ?_⟩
    simp only [MapById.Insert, h1, if_true] at h
    exact (Option.some_inj.mp h).symm
  · exfalso
    rw [Bool.not_eq_true] at h1
    simp only [MapById.Insert, h1] at h
    simp at h

theorem Insert_eq {α : Type} (m : MapById α) (id : NodeId) (d : α)
    (h1 : (memplace id.node_index d (getTraj m id.trajectory_id).data_).2 = true) :
    m.Insert id d = some ⟨mset id.trajectory_id
      ⟨false, (memplace id.node_index d (getTraj m id.trajectory_id).data_).1⟩
      m.trajectories_⟩ := by
  simp only [MapById.Insert, h1, if_true]

theorem Trim_inv {α : Type} {m : MapById α} {id : NodeId} {m' : MapById α}
    (h : m.Trim id = some m') :
    ∃ tr, mfind id.trajectory_id m.trajectories_ = some tr ∧
      (mfind id.node_index tr.data_).isSome = true ∧
      m' = ⟨mset id.trajectory_id
        ⟨if misLastKey id.node_index tr.data_ then false else tr.can_append_,
         merase id.node_index tr.data_⟩ m.trajectories_⟩ := by
  unfold MapById.Trim at h
  cases hT : mfind id.trajectory_id m.trajectories_ with
  | none =>
    simp only [hT] at h
    exact Option.noConfusion h
  | some tr =>
    simp only [hT] at h
    cases hD : mfind id.node_index tr.data_ with
    | none =>
      simp only [hD] at h
      exact Option.noConfusion h
    | some w =>
      simp only [hD, Option.some_inj] at h
      exact ⟨tr, rfl, by simp [hD], h.symm⟩

theorem Trim_eq {α : Type} (m : MapById α) (id : NodeId) {tr : MapByIndex α} {w : α}
    (hT : mfind id.trajectory_id m.trajectories_ = some tr)
    (hD : mfind id.node_index tr.data_ = some w) :
    m.Trim id = some ⟨mset id.trajectory_id
      ⟨if misLastKey id.node_index tr.data_ then false else tr.can_append_,
       merase id.node_index tr.data_⟩ m.trajectories_⟩ := by
  unfold MapById.Trim
  simp only [hT, hD]

theorem canAppend_mk_mset_self {α : Type} (l : List (Int × MapByIndex α)) (t : Int)
    (tr : MapByIndex α) :
    (MapById.mk (mset t tr l)).canAppend t = tr.can_append_ := by
  rw [canAppend_eq]
  unfold getTraj
  simp [mfind_mset_self]

theorem canAppend_mk_mset_ne {α : Type} (l : List (Int × MapByIndex α)) {t t' : Int}
    (h : t ≠ t') (tr : MapByIndex α) :
    (MapById.mk (mset t' tr l)).canAppend t = (MapById.mk l).canAppend t := by
  rw [canAppend_eq, canAppend_eq]
  unfold getTraj
  simp [mfind_mset_ne h]

theorem atId_mk_mset_eq {α : Type} (l : List (Int × MapByIndex α)) {t : Int}
    (tr : MapByIndex α) (id : NodeId) (h : id.trajectory_id = t) :
    (MapById.mk (mset t tr l)).atId id = mfind id.node_index tr.data_ := by
  rw [atId_eq]
  unfold getTraj
  simp [h, mfind_mset_self]

theorem atId_mk_mset_ne {α : Type} (l : List (Int × MapByIndex α)) {t : Int}
    (tr : MapByIndex α) (id : NodeId) (h : id.trajectory_id ≠ t) :
    (MapById.mk (mset t tr l)).atId id = (MapById.mk l).atId id := by
  rw [atId_eq, atId_eq]
  unfold getTraj
  simp [mfind_mset_ne h]

theorem WF_getTraj {α : Type} {m : MapById α} (hwf : m.WF) (t : Int) :
    MWF (getTraj m t).data_ := by
  unfold getTraj
  cases h : mfind t m.trajectories_ with
  | none =>
    unfold MWF
    simp
  | some tr => exact hwf.2 (t, tr) (mfind_some_mem h)

theorem WF_mk_mset {α : Type} {m : MapById α} (hwf : m.WF) (t : Int) {tr : MapByIndex α}
    (htr : MWF tr.data_) : (MapById.mk (mset t tr m.trajectories_)).WF := by
  constructor
  · exact MWF_mset t tr hwf.1
  · intro p hp
    rcases mem_mset hp with h' | h'
    · rw [h']; exact htr
    · exact hwf.2 p h'

theorem canAppend_mono_applyOp {α : Type} {m m' : MapById α} {op : Op α} {t : Int}
    (hc : m.canAppend t = false) (h : applyOp m op = some m') :
    m'.canAppend t = false := by
  cases op with
  | append t' d =>
    simp only [applyOp, Option.map_eq_some'] at h
    obtain ⟨r, hr, hm'⟩ := h
    obtain ⟨h0, h1, hr2⟩ := Append_inv hr
    by_cases ht : t = t'
    · exfalso
      rw [canAppend_eq, ht, h1] at hc
      exact Bool.noConfusion hc
    · rw [← hm', hr2]
      rw [canAppend_mk_mset_ne _ ht]
      exact hc
  | insert id d =>
    simp only [applyOp] at h
    obtain ⟨h1, hm'⟩ := Insert_inv h
    by_cases ht : t = id.trajectory_id
    · rw [hm', ← ht, canAppend_mk_mset_self]
    · rw [hm', canAppend_mk_mset_ne _ ht]
      exact hc
  | trim id =>
    simp only [applyOp] at h
    obtain ⟨tr, hT, hD, hm'⟩ := Trim_inv h
    by_cases ht : t = id.trajectory_id
    · rw [hm', ← ht, canAppend_mk_mset_self]
      have hct : tr.can_append_ = false := by
        rw [canAppend_eq] at hc
        unfold getTraj at hc
        rw [ht, hT] at hc
        exact hc
      rw [hct]
      simp
    · rw [hm', canAppend_mk_mset_ne _ ht]
      exact hc

theorem canAppend_mono_runFrom {α : Type} {m m' : MapById α} {l : List (Op α)} {t : Int}
    (hc : m.canAppend t = false) (h : runFrom m l = some m') : m'.canAppend t = false := by
  induction l generalizing m with
  | nil =>
    rw [runFrom, Option.some_inj] at h
    rw [← h]
    exact hc
  | cons op ops ih =>
    rw [runFrom] at h
    obtain ⟨m₁, h1, h2⟩ := Option.bind_eq_some.mp h
    exact ih (canAppend_mono_applyOp hc h1) h2

theorem WF_applyOp {α : Type} {m m' : MapById α} {op : Op α} (hwf : m.WF)
    (h : applyOp m op = some m') : m'.WF := by
  cases op with
  | append t' d =>
    simp only [applyOp, Option.map_eq_some'] at h
    obtain ⟨r, hr, hm'⟩ := h
    obtain ⟨h0, h1, hr2⟩ := Append_inv hr
    rw [← hm', hr2]
    exact WF_mk_mset hwf t' (MWF_memplace _ _ (WF_getTraj hwf t'))
  | insert id d =>
    simp only [applyOp] at h
    obtain ⟨h1, hm'⟩ := Insert_inv h
    rw [hm']
    exact WF_mk_mset hwf _ (MWF_memplace _ _ (WF_getTraj hwf _))
  | trim id =>
    simp only [applyOp] at h
    obtain ⟨tr, hT, hD, hm'⟩ := Trim_inv h
    rw [hm']
    exact WF_mk_mset hwf _ (MWF_merase _ (hwf.2 (id.trajectory_id, tr) (mfind_some_mem hT)))

theorem WF_runFrom {α : Type} {m m' : MapById α} {l : List (Op α)} (hwf : m.WF)
    (h : runFrom m l = some m') : m'.WF := by
  induction l generalizing m with
  | nil =>
    rw [runFrom, Option.some_inj] at h
    rw [← h]
    exact hwf
  | cons op ops ih =>
    rw [runFrom] at h
    obtain ⟨m₁, h1, h2⟩ := Option.bind_eq_some.mp h
    exact ih (WF_applyOp hwf h1) h2

theorem WF_empty {α : Type} : (MapById.mk ([] : List (Int × MapByIndex α))).WF := by
  constructor
  · unfold MWF
    simp
  · intro p hp
    simp at hp

theorem run_WF {α : Type} {ops : List (Op α)} {m : MapById α} (h : run ops = some m) :
    m.WF :=
  WF_runFrom WF_empty h

/-- A trajectory whose flag is false can never be appended to: the `CHECK`
fails (and a negative trajectory id already fails the `CHECK_GE`). -/
theorem Append_none {α : Type} {m : MapById α} {t : Int} (hc : m.canAppend t = false)
    (d : α) : m.Append t d = none := by
  by_cases h0 : t < 0
  · simp [MapById.Append, h0]
  · rw [canAppend_eq] at hc
    simp [MapById.Append, h0, hc]

/-- The index `Append` chooses is fresh: it exceeds every key of the
trajectory's map. -/
theorem mfind_nextIndex_none {α : Type} {tr : MapByIndex α} (hwf : MWF tr.data_) :
    mfind (nextIndex tr) tr.data_ = none := by
  unfold nextIndex
  cases hL : tr.data_.getLast? with
  | none =>
    rw [List.getLast?_eq_none_iff] at hL
    rw [hL]
    rfl
  | some p =>
    cases hf : mfind (p.1 + 1) tr.data_ with
    | none => rfl
    | some w =>
      exfalso
      have hmem := mfind_some_mem hf
      have := getLast_max hwf hL (p.1 + 1, w) hmem
      simp only at this
      omega

theorem keys_lt_nextIndex {α : Type} {tr : MapByIndex α} (hwf : MWF tr.data_) :
    ∀ p ∈ tr.data_, p.1 < nextIndex tr := by
  intro p hp
  cases hL : tr.data_.getLast? with
  | none =>
    rw [List.getLast?_eq_none_iff] at hL
    rw [hL] at hp
    simp at hp
  | some q =>
    have h1 := getLast_max hwf hL p hp
    simp only [nextIndex, hL]
    omega

/-- Specification of a run of `Append` calls to one trajectory: they succeed
and return the consecutive indices starting at the trajectory's next index. -/
theorem appendAll_spec {α : Type} (ds : List α) (t : Int) (h0 : 0 ≤ t) (m : MapById α)
    (hwf : m.WF) (hc : (getTraj m t).can_append_ = true) :
    ∃ m', appendAll m t ds =
      some ((List.range ds.length).map fun n => ⟨t, nextIndex (getTraj m t) + (n : Int)⟩, m') := by
  induction ds generalizing m with
  | nil =>
    refine ⟨m, ?_⟩
    simp [appendAll]
  | cons d ds ih =>
    have htrwf : MWF (getTraj m t).data_ := WF_getTraj hwf t
    have hstep := Append_eq m t d h0 hc
    set tr := getTraj m t with htr
    set idx := nextIndex tr with hidx
    have hemp : memplace idx d tr.data_ = (tr.data_ ++ [(idx, d)], true) :=
      memplace_append d (keys_lt_nextIndex htrwf)
    set m₁ : MapById α := ⟨mset t ⟨true, (memplace idx d tr.data_).1⟩ m.trajectories_⟩
      with hm₁
    have hm₁wf : m₁.WF := WF_mk_mset hwf t (MWF_memplace _ _ htrwf)
    have hg₁ : getTraj m₁ t = ⟨true, tr.data_ ++ [(idx, d)]⟩ := by
      unfold getTraj
      rw [hm₁]
      simp only [mfind_mset_self, Option.getD_some]
      rw [hemp]
    have hc₁ : (getTraj m₁ t).can_append_ = true := by rw [hg₁]
    have hn₁ : nextIndex (getTraj m₁ t) = idx + 1 := by
      rw [hg₁]
      unfold nextIndex
      simp [List.getLast?_concat]
    obtain ⟨m', hm'⟩ := ih m₁ hm₁wf hc₁
    refine ⟨m', ?_⟩
    rw [appendAll, hstep]
    simp only [Option.bind_eq_bind, Option.some_bind]
    rw [hm']
    simp only [Option.map_some', Option.some_inj, Prod.mk.injEq, List.length_cons]
    constructor
    · rw [List.range_succ_eq_map, List.map_cons, List.map_map, hn₁]
      congr 1
      · simp
      · apply List.map_congr_left
        intro n hn
        simp only [Function.comp_apply, NodeId.mk.injEq, true_and]
        push_cast
        ring
    · trivial

theorem atId_found {α : Type} {m : MapById α} {t j : Int} {tr : MapByIndex α}
    (hT : mfind t m.trajectories_ = some tr) :
    m.atId ⟨t, j⟩ = mfind j tr.data_ := by
  unfold MapById.atId
  simp only [hT]

theorem canAppend_found {α : Type} {m : MapById α} {t : Int} {tr : MapByIndex α}
    (hT : mfind t m.trajectories_ = some tr) :
    m.canAppend t = tr.can_append_ := by
  unfold MapById.canAppend
  simp only [hT]

/-! ### Claim theorems -/

/-- C2: the `can_append` flag of each trajectory transitions one way only:
once it is false, no sequence of successful Append, Insert and Trim
operations ever observes it true again. -/
theorem canAppend_one_way {α : Type} (m m' : MapById α) (t : Int) (l : List (Op α))
    (hc : m.canAppend t = false) (h : runFrom m l = some m') :
    m'.canAppend t = false :=
  canAppend_mono_runFrom hc h

/-- Witness for C2: a trajectory locked by an `Insert` stays locked across a
further `Trim`. -/
theorem canAppend_one_way_witness :
    (MapById.mk [((0 : Int), MapByIndex.mk false [((0 : Int), (1 : Nat))])]).canAppend 0
        = false ∧
    runFrom (MapById.mk [((0 : Int), MapByIndex.mk false [((0 : Int), (1 : Nat))])])
        [Op.trim ⟨0, 0⟩]
      = some (MapById.mk [((0 : Int), MapByIndex.mk false ([] : List (Int × Nat)))]) ∧
    (MapById.mk [((0 : Int), MapByIndex.mk false ([] : List (Int × Nat)))]).canAppend 0
        = false :=
  ⟨by decide, by decide,
    canAppend_one_way
      (MapById.mk [((0 : Int), MapByIndex.mk false [((0 : Int), (1 : Nat))])])
      (MapById.mk [((0 : Int), MapByIndex.mk false ([] : List (Int × Nat)))])
      0 [Op.trim ⟨0, 0⟩] (by decide) (by decide)⟩

/-- C1 counterexample: after Append, Append, Trim((0,0)) — a trim of a
non-trailing element — trajectory 0 still has `can_append = true` although
its only occupied position is 1: the occupied positions are not a contiguous
run starting at 0, refuting the claimed invariant. -/
theorem canAppend_contiguity_counterexample :
    run [Op.append 0 (1 : Nat), Op.append 0 2, Op.trim ⟨0, 0⟩] =
      some (MapById.mk [((0 : Int), MapByIndex.mk true [((1 : Int), (2 : Nat))])]) ∧
    (MapById.mk [((0 : Int), MapByIndex.mk true [((1 : Int), (2 : Nat))])]).canAppend 0
        = true ∧
    (MapById.mk [((0 : Int), MapByIndex.mk true [((1 : Int), (2 : Nat))])]).atId ⟨0, 1⟩
        = some 2 ∧
    (MapById.mk [((0 : Int), MapByIndex.mk true [((1 : Int), (2 : Nat))])]).atId ⟨0, 0⟩
        = none :=
  ⟨by decide, by decide, by decide, by decide⟩

/-- C1 (amended): a trajectory's `can_append` flag is true only while no
successful `Insert` into it and no `Trim` of its then-maximal occupied
position has occurred: after any such operation the flag is false in every
later reachable state. (The occupied positions need not form a contiguous
run starting at 0: a trim of a non-trailing element leaves the flag true
while creating a gap.) -/
theorem canAppend_false_after_insert_or_max_trim {α : Type} (m₁ m₂ m₃ : MapById α)
    (op : Op α) (l : List (Op α)) (t : Int) (hwf : m₁.WF)
    (hop : applyOp m₁ op = some m₂)
    (hkind : (∃ i d, op = Op.insert ⟨t, i⟩ d) ∨
      (∃ i, op = Op.trim ⟨t, i⟩ ∧
        ∀ j, (m₁.atId ⟨t, j⟩).isSome = true → j ≤ i))
    (hrun : runFrom m₂ l = some m₃) :
    m₃.canAppend t = false := by
  refine canAppend_mono_runFrom ?_ hrun
  rcases hkind with ⟨i, d, rfl⟩ | ⟨i, rfl, hmax⟩
  · simp only [applyOp] at hop
    obtain ⟨hsnd, hm₂⟩ := Insert_inv hop
    rw [hm₂]
    simp [canAppend_mk_mset_self]
  · simp only [applyOp] at hop
    obtain ⟨tr, hT, hD, hm₂⟩ := Trim_inv hop
    have htrwf : MWF tr.data_ := hwf.2 (t, tr) (mfind_some_mem hT)
    obtain ⟨w, hw⟩ := Option.isSome_iff_exists.mp hD
    have hmem : (i, w) ∈ tr.data_ := mfind_some_mem hw
    have hmax' : ∀ q ∈ tr.data_, q.1 ≤ i := by
      intro q hq
      apply hmax q.1
      rw [atId_found hT,
        mem_mfind htrwf (show (q.1, q.2) ∈ tr.data_ by simpa using hq)]
      rfl
    have hlast := getLast_of_max htrwf hmem hmax'
    have hml : misLastKey i tr.data_ = true := misLastKey_true_of_last htrwf hlast
    rw [hm₂]
    simp [canAppend_mk_mset_self, hml]

/-- Witness for C1: trimming the maximal position of a one-entry trajectory
leaves its `can_append` flag false. -/
theorem canAppend_false_after_insert_or_max_trim_witness :
    (MapById.mk [((0 : Int), MapByIndex.mk false ([] : List (Int × Nat)))]).canAppend 0
      = false := by
  apply canAppend_false_after_insert_or_max_trim
    (MapById.mk [((0 : Int), MapByIndex.mk true [((0 : Int), (5 : Nat))])])
    (MapById.mk [((0 : Int), MapByIndex.mk false ([] : List (Int × Nat)))])
    (MapById.mk [((0 : Int), MapByIndex.mk false ([] : List (Int × Nat)))])
    (Op.trim ⟨0, 0⟩) [] 0 (by decide) (by decide) ?_ (by decide)
  right
  refine ⟨0, rfl, ?_⟩
  intro j hj
  by_cases hje : j = 0
  · omega
  · exfalso
    simp [MapById.atId, mfind, hje] at hj

/-- C3 counterexample: `Insert` with a negative trajectory id is accepted by
the code — no `CHECK_GE(trajectory_id, 0)` appears in `Insert` — and it
modifies the container, creating trajectory -1. -/
theorem negative_insert_counterexample :
    (MapById.mk ([] : List (Int × MapByIndex Nat))).Insert ⟨-1, 0⟩ 5 =
      some (MapById.mk [((-1 : Int), MapByIndex.mk false [((0 : Int), (5 : Nat))])]) := by
  decide

/-- C3 (amended): `Append` with a negative trajectory id is a fatal contract
violation (it aborts before modifying anything), but `Insert` performs no
sign check: any identifier whose position is free is accepted, negative
trajectory ids included. -/
theorem negative_id_checks {α : Type} (m : MapById α) (t : Int) (d : α) (id : NodeId)
    (v : α) (h : t < 0) :
    m.Append t d = none ∧ (m.atId id = none → (m.Insert id v).isSome = true) := by
  constructor
  · simp [MapById.Append, h]
  · intro ha
    rw [atId_eq] at ha
    have he := memplace_of_find_none v ha
    rw [Insert_eq m id v (by rw [he])]
    rfl

/-- Witness for C3 (amended) on the empty container. -/
theorem negative_id_checks_witness :
    (MapById.mk ([] : List (Int × MapByIndex Nat))).Append (-1) 5 = none ∧
    ((MapById.mk ([] : List (Int × MapByIndex Nat))).atId ⟨-1, 0⟩ = none →
      ((MapById.mk ([] : List (Int × MapByIndex Nat))).Insert ⟨-1, 0⟩ 5).isSome = true) :=
  negative_id_checks (MapById.mk []) (-1) 5 ⟨-1, 0⟩ 5 (by decide)

theorem atId_mk_eq {α : Type} (m : MapById α) (t j : Int) :
    m.atId ⟨t, j⟩ = mfind j (getTraj m t).data_ :=
  atId_eq m ⟨t, j⟩

/-- C5: `Insert` at a free identifier stores the payload there and
unconditionally locks the trajectory: its `can_append` flag becomes false,
every other entry is untouched, and any subsequent `Append` to that
trajectory is a contract violation — even when the inserted position was not
maximal. -/
theorem insert_stores_and_locks {α : Type} (m : MapById α) (id : NodeId) (d : α)
    (h : m.atId id = none) :
    ∃ m', m.Insert id d = some m' ∧ m'.atId id = some d ∧
      m'.canAppend id.trajectory_id = false ∧
      (∀ id', id' ≠ id → m'.atId id' = m.atId id') ∧
      (∀ d', m'.Append id.trajectory_id d' = none) := by
  rw [atId_eq] at h
  have he := memplace_of_find_none d h
  refine ⟨_, Insert_eq m id d (by rw [he]), ?_, ?_, ?_, ?_⟩
  · rw [atId_mk_mset_eq _ _ id rfl]
    show mfind id.node_index (memplace id.node_index d (getTraj m id.trajectory_id).data_).1
      = some d
    rw [he]
    exact mfind_mset_self _ _ _
  · rw [canAppend_mk_mset_self]
  · intro id' hne
    by_cases ht : id'.trajectory_id = id.trajectory_id
    · rw [atId_mk_mset_eq _ _ id' ht]
      show mfind id'.node_index
        (memplace id.node_index d (getTraj m id.trajectory_id).data_).1 = m.atId id'
      have hni : id'.node_index ≠ id.node_index := by
        intro hni
        apply hne
        obtain ⟨a, b⟩ := id'
        obtain ⟨c, e⟩ := id
        simp_all
      rw [he, mfind_mset_ne hni, atId_eq m id', ht]
    · rw [atId_mk_mset_ne _ _ id' ht]
  · intro d'
    apply Append_none
    rw [canAppend_mk_mset_self]

/-- Witness for C5: inserting at (5, 3) into the empty container. -/
theorem insert_stores_and_locks_witness :
    ∃ m', (MapById.mk ([] : List (Int × MapByIndex Nat))).Insert ⟨5, 3⟩ 7 = some m' ∧
      m'.atId ⟨5, 3⟩ = some 7 ∧
      m'.canAppend 5 = false ∧
      (∀ id', id' ≠ (⟨5, 3⟩ : NodeId) →
        m'.atId id' = (MapById.mk ([] : List (Int × MapByIndex Nat))).atId id') ∧
      (∀ d', m'.Append 5 d' = none) :=
  insert_stores_and_locks (MapById.mk []) ⟨5, 3⟩ 7 (by decide)

/-- C4: `Trim` of an existing entry removes exactly that entry; it sets the
trajectory's `can_append` flag to false precisely when the removed position
was the trajectory's maximum, and after such a maximal trim every `Append`
to that trajectory is a contract violation. -/
theorem trim_removes_entry_and_locks_iff_max {α : Type} (m : MapById α) (id : NodeId)
    (v : α) (hwf : m.WF) (h : m.atId id = some v) :
    ∃ m', m.Trim id = some m' ∧ m'.atId id = none ∧
      (∀ id', id' ≠ id → m'.atId id' = m.atId id') ∧
      ((∀ j, (m.atId ⟨id.trajectory_id, j⟩).isSome = true → j ≤ id.node_index) →
        m'.canAppend id.trajectory_id = false ∧
        ∀ d, m'.Append id.trajectory_id d = none) ∧
      ((∃ j, id.node_index < j ∧ (m.atId ⟨id.trajectory_id, j⟩).isSome = true) →
        m'.canAppend id.trajectory_id = m.canAppend id.trajectory_id) := by
  cases hT : mfind id.trajectory_id m.trajectories_ with
  | none =>
    unfold MapById.atId at h
    simp only [hT] at h
    exact Option.noConfusion h
  | some tr =>
    have hD : mfind id.node_index tr.data_ = some v := by
      unfold MapById.atId at h
      simp only [hT] at h
      exact h
    have htrwf : MWF tr.data_ := hwf.2 (id.trajectory_id, tr) (mfind_some_mem hT)
    refine ⟨_, Trim_eq m id hT hD, ?_, ?_, ?_, ?_⟩
    · rw [atId_mk_mset_eq _ _ id rfl]
      exact mfind_merase_self _ htrwf
    · intro id' hne
      by_cases ht : id'.trajectory_id = id.trajectory_id
      · rw [atId_mk_mset_eq _ _ id' ht]
        show mfind id'.node_index (merase id.node_index tr.data_) = m.atId id'
        have hni : id'.node_index ≠ id.node_index := by
          intro hni
          apply hne
          obtain ⟨a, b⟩ := id'
          obtain ⟨c, e⟩ := id
          simp_all
        rw [mfind_merase_ne hni]
        have hat : m.atId id' = mfind id'.node_index tr.data_ := by
          unfold MapById.atId
          rw [ht]
          simp only [hT]
        rw [hat]
      · rw [atId_mk_mset_ne _ _ id' ht]
    · intro hmax
      have hmem : (id.node_index, v) ∈ tr.data_ := mfind_some_mem hD
      have hmax' : ∀ q ∈ tr.data_, q.1 ≤ id.node_index := by
        intro q hq
        apply hmax q.1
        rw [atId_mk_eq]
        show (mfind q.1 (getTraj m id.trajectory_id).data_).isSome = true
        unfold getTraj
        rw [hT]
        simp only [Option.getD_some]
        rw [mem_mfind htrwf (show (q.1, q.2) ∈ tr.data_ by simpa using hq)]
        rfl
      have hml := misLastKey_true_of_last htrwf (getLast_of_max htrwf hmem hmax')
      constructor
      · rw [canAppend_mk_mset_self]
        simp [hml]
      · intro d
        apply Append_none
        rw [canAppend_mk_mset_self]
        simp [hml]
    · rintro ⟨j, hj, hjs⟩
      have hjs' : (mfind j tr.data_).isSome = true := by
        rw [atId_mk_eq] at hjs
        unfold getTraj at hjs
        rw [hT] at hjs
        simpa using hjs
      obtain ⟨w, hw⟩ := Option.isSome_iff_exists.mp hjs'
      have hml := misLastKey_false_of_gt j w htrwf (mfind_some_mem hw) hj
      rw [canAppend_mk_mset_self, canAppend_found hT]
      simp [hml]

/-- Witness for C4: trimming the maximal position (0,1) after appends at
positions 0 and 1 removes it, locks the trajectory and makes further appends
fail. -/
theorem trim_removes_entry_and_locks_iff_max_witness :
    ∃ m', (MapById.mk [((0 : Int), MapByIndex.mk true
        [((0 : Int), (1 : Nat)), (1, 2)])]).Trim ⟨0, 1⟩ = some m' ∧
      m'.atId ⟨0, 1⟩ = none ∧ m'.canAppend 0 = false ∧ ∀ d, m'.Append 0 d = none := by
  obtain ⟨m', h1, h2, hfr, hmaxb, hnm⟩ :=
    trim_removes_entry_and_locks_iff_max
      (MapById.mk [((0 : Int), MapByIndex.mk true [((0 : Int), (1 : Nat)), (1, 2)])])
      ⟨0, 1⟩ 2 (by decide) (by decide)
  have hmax : ∀ j : Int,
      ((MapById.mk [((0 : Int), MapByIndex.mk true
        [((0 : Int), (1 : Nat)), (1, 2)])]).atId ⟨0, j⟩).isSome = true → j ≤ 1 := by
    intro j hj
    by_cases hj0 : j = 0
    · omega
    · by_cases hj1 : j = 1
      · omega
      · exfalso
        simp [MapById.atId, mfind, hj0, hj1] at hj
  obtain ⟨hc, hap⟩ := hmaxb hmax
  exact ⟨m', h1, h2, hc, hap⟩

theorem atId_mk_mset_self_idx {α : Type} (l : List (Int × MapByIndex α)) (t j : Int)
    (tr : MapByIndex α) :
    (MapById.mk (mset t tr l)).atId ⟨t, j⟩ = mfind j tr.data_ :=
  atId_mk_mset_eq l tr ⟨t, j⟩ rfl

/-- C9: immediately after `id = Append(t, v)` the lookup `at(id)` returns `v`,
and every previously stored entry is unchanged at its identifier. -/
theorem at_of_append {α : Type} (m : MapById α) (t : Int) (v : α) (hwf : m.WF)
    (h0 : 0 ≤ t) (hc : m.canAppend t = true) :
    ∃ id m', m.Append t v = some (id, m') ∧ m'.atId id = some v ∧
      ∀ id', id' ≠ id → m'.atId id' = m.atId id' := by
  have hct : (getTraj m t).can_append_ = true := by rwa [canAppend_eq] at hc
  have htrwf := WF_getTraj hwf t
  have hfresh := mfind_nextIndex_none htrwf
  have he := memplace_of_find_none v hfresh
  refine ⟨_, _, Append_eq m t v h0 hct, ?_, ?_⟩
  · rw [atId_mk_mset_self_idx]
    show mfind (nextIndex (getTraj m t))
      (memplace (nextIndex (getTraj m t)) v (getTraj m t).data_).1 = some v
    rw [he]
    exact mfind_mset_self _ _ _
  · intro id' hne
    by_cases ht : id'.trajectory_id = t
    · rw [atId_mk_mset_eq _ _ id' ht]
      show mfind id'.node_index
        (memplace (nextIndex (getTraj m t)) v (getTraj m t).data_).1 = m.atId id'
      have hni : id'.node_index ≠ nextIndex (getTraj m t) := by
        intro hni
        apply hne
        obtain ⟨a, b⟩ := id'
        simp_all
      rw [he, mfind_mset_ne hni, atId_eq m id', ht]
    · rw [atId_mk_mset_ne _ _ id' ht]

/-- Witness for C9 on the empty container. -/
theorem at_of_append_witness :
    ∃ id m', (MapById.mk ([] : List (Int × MapByIndex Nat))).Append 0 42 =
        some (id, m') ∧ m'.atId id = some 42 := by
  obtain ⟨id, m', h1, h2, hfr⟩ :=
    at_of_append (MapById.mk ([] : List (Int × MapByIndex Nat))) 0 42
      (by decide) (by decide) (by decide)
  exact ⟨id, m', h1, h2⟩

/-- C10: `Trim` of an entry that is not its trajectory's maximal position
leaves the trajectory's `can_append` flag unchanged. -/
theorem trim_nonmax_preserves_canAppend {α : Type} (m : MapById α) (id : NodeId)
    (v w : α) (j : Int) (hwf : m.WF) (h : m.atId id = some v)
    (hj : id.node_index < j) (hjs : m.atId ⟨id.trajectory_id, j⟩ = some w) :
    ∃ m', m.Trim id = some m' ∧
      m'.canAppend id.trajectory_id = m.canAppend id.trajectory_id := by
  cases hT : mfind id.trajectory_id m.trajectories_ with
  | none =>
    unfold MapById.atId at h
    simp only [hT] at h
    exact Option.noConfusion h
  | some tr =>
    have hD : mfind id.node_index tr.data_ = some v := by
      unfold MapById.atId at h
      simp only [hT] at h
      exact h
    have htrwf : MWF tr.data_ := hwf.2 (id.trajectory_id, tr) (mfind_some_mem hT)
    have hw : mfind j tr.data_ = some w := by
      rw [atId_mk_eq] at hjs
      unfold getTraj at hjs
      rw [hT] at hjs
      simpa using hjs
    have hml := misLastKey_false_of_gt j w htrwf (mfind_some_mem hw) hj
    refine ⟨_, Trim_eq m id hT hD, ?_⟩
    rw [canAppend_mk_mset_self, canAppend_found hT]
    simp [hml]

/-- Witness for C10: after appends at positions 0 and 1, trimming position 0
keeps `can_append` true, and the next `Append` succeeds and returns
position 2. -/
theorem trim_nonmax_preserves_canAppend_witness :
    run [Op.append 0 (1 : Nat), Op.append 0 2] =
      some (MapById.mk [((0 : Int), MapByIndex.mk true
        [((0 : Int), (1 : Nat)), (1, 2)])]) ∧
    (∃ m', (MapById.mk [((0 : Int), MapByIndex.mk true
        [((0 : Int), (1 : Nat)), (1, 2)])]).Trim ⟨0, 0⟩ = some m' ∧
      m'.canAppend 0 = (MapById.mk [((0 : Int), MapByIndex.mk true
        [((0 : Int), (1 : Nat)), (1, 2)])]).canAppend 0) ∧
    (MapById.mk [((0 : Int), MapByIndex.mk true
        [((1 : Int), (2 : Nat))])]).canAppend 0 = true ∧
    (MapById.mk [((0 : Int), MapByIndex.mk true [((1 : Int), (2 : Nat))])]).Append 0 3 =
      some (⟨0, 2⟩, MapById.mk [((0 : Int), MapByIndex.mk true [(1, 2), (2, 3)])]) :=
  ⟨by decide,
    trim_nonmax_preserves_canAppend
      (MapById.mk [((0 : Int), MapByIndex.mk true [((0 : Int), (1 : Nat)), (1, 2)])])
      ⟨0, 0⟩ 1 2 1 (by decide) (by decide) (by decide) (by decide),
    by decide, by decide⟩

theorem NodeId.Lt_irrefl (a : NodeId) : ¬ NodeId.Lt a a := by
  intro h
  rcases h with h | ⟨_, h⟩ <;> omega

theorem mem_toList_iff_atId {α : Type} {m : MapById α} (hwf : m.WF) (id : NodeId)
    (d : α) : (id, d) ∈ m.toList ↔ m.atId id = some d := by
  unfold MapById.toList
  rw [List.mem_flatMap]
  constructor
  · rintro ⟨p, hp, hmem⟩
    rw [List.mem_map] at hmem
    obtain ⟨q, hq, hpq⟩ := hmem
    have h1 : (⟨p.1, q.1⟩ : NodeId) = id := congrArg Prod.fst hpq
    have h2 : q.2 = d := congrArg Prod.snd hpq
    subst h1
    subst h2
    have hT : mfind p.1 m.trajectories_ = some p.2 :=
      mem_mfind hwf.1 (show (p.1, p.2) ∈ m.trajectories_ by simpa using hp)
    rw [atId_found hT]
    exact mem_mfind (hwf.2 p hp) (show (q.1, q.2) ∈ p.2.data_ by simpa using hq)
  · intro ha
    cases hT : mfind id.trajectory_id m.trajectories_ with
    | none =>
      unfold MapById.atId at ha
      simp only [hT] at ha
      exact Option.noConfusion ha
    | some tr =>
      have hD : mfind id.node_index tr.data_ = some d := by
        unfold MapById.atId at ha
        simp only [hT] at ha
        exact ha
      refine ⟨(id.trajectory_id, tr), mfind_some_mem hT, ?_⟩
      rw [List.mem_map]
      exact ⟨(id.node_index, d), mfind_some_mem hD, rfl⟩

theorem toList_pairwise {α : Type} {m : MapById α} (hwf : m.WF) :
    m.toList.Pairwise (fun a b => NodeId.Lt a.1 b.1) := by
  unfold MapById.toList
  rw [List.flatMap_def, List.pairwise_flatten]
  constructor
  · intro l' hl'
    rw [List.mem_map] at hl'
    obtain ⟨p, hp, rfl⟩ := hl'
    rw [List.pairwise_map]
    apply List.Pairwise.imp ?_ (hwf.2 p hp)
    intro a b hab
    exact Or.inr ⟨rfl, hab⟩
  · rw [List.pairwise_map]
    apply List.Pairwise.imp ?_ hwf.1
    intro a b hab x hx y hy
    rw [List.mem_map] at hx hy
    obtain ⟨qa, _, rfl⟩ := hx
    obtain ⟨qb, _, rfl⟩ := hy
    exact Or.inl hab

/-- C7: iterating the container yields every stored (identifier, data) pair
exactly once, in strictly increasing identifier order (trajectories
ascending, positions ascending within a trajectory); trajectories without
entries contribute nothing. -/
theorem iteration_ordered_complete {α : Type} (m : MapById α) (hwf : m.WF) :
    m.toList.Pairwise (fun a b => NodeId.Lt a.1 b.1) ∧
    (m.toList.map Prod.fst).Nodup ∧
    (∀ id d, (id, d) ∈ m.toList ↔ m.atId id = some d) := by
  have hp := toList_pairwise hwf
  refine ⟨hp, ?_, fun id d => mem_toList_iff_atId hwf id d⟩
  unfold List.Nodup
  rw [List.pairwise_map]
  apply List.Pairwise.imp ?_ hp
  intro a b hab heq
  exact NodeId.Lt_irrefl a.1 (heq ▸ hab)

/-- Witness for C7: the container with trajectories {0, 2} populated at
positions {0,1} and {0}, and trajectory 1 created but emptied by a trim,
iterates as (0,0), (0,1), (2,0). -/
theorem iteration_ordered_complete_witness :
    run [Op.append 0 (1 : Nat), Op.append 0 2, Op.insert ⟨1, 0⟩ 7, Op.trim ⟨1, 0⟩,
        Op.append 2 3] =
      some (MapById.mk [((0 : Int), MapByIndex.mk true [((0 : Int), (1 : Nat)), (1, 2)]),
        (1, MapByIndex.mk false []), (2, MapByIndex.mk true [(0, 3)])]) ∧
    (MapById.mk [((0 : Int), MapByIndex.mk true [((0 : Int), (1 : Nat)), (1, 2)]),
        (1, MapByIndex.mk false []), (2, MapByIndex.mk true [(0, 3)])]).toList.map
        Prod.fst = [⟨0, 0⟩, ⟨0, 1⟩, ⟨2, 0⟩] ∧
    (MapById.mk [((0 : Int), MapByIndex.mk true [((0 : Int), (1 : Nat)), (1, 2)]),
        (1, MapByIndex.mk false []), (2, MapByIndex.mk true [(0, 3)])]).toList.Pairwise
        (fun a b => NodeId.Lt a.1 b.1) :=
  ⟨by decide, by decide,
    (iteration_ordered_complete
      (MapById.mk [((0 : Int), MapByIndex.mk true [((0 : Int), (1 : Nat)), (1, 2)]),
        (1, MapByIndex.mk false []), (2, MapByIndex.mk true [(0, 3)])])
      (by decide)).1⟩

/-- C8: `Insert` at an already-occupied identifier is a contract violation;
`Trim` of a non-existent identifier is a contract violation; and `at` of an
identifier with no entry (none stored, i.e. not produced by iteration)
yields no value. -/
theorem insert_duplicate_trim_missing_fatal {α : Type} (m : MapById α) (id : NodeId)
    (d : α) (hwf : m.WF) :
    (∀ v, m.atId id = some v → m.Insert id d = none) ∧
    (m.atId id = none → m.Trim id = none) ∧
    ((∀ v, (id, v) ∉ m.toList) → m.atId id = none) := by
  refine ⟨?_, ?_, ?_⟩
  · intro v hv
    rw [atId_eq] at hv
    have hs : (mfind id.node_index (getTraj m id.trajectory_id).data_).isSome = true := by
      rw [hv]
      rfl
    have hsnd := memplace_snd_false d (WF_getTraj hwf id.trajectory_id) hs
    unfold MapById.Insert
    simp [hsnd]
  · intro ha
    unfold MapById.Trim
    cases hT : mfind id.trajectory_id m.trajectories_ with
    | none => rfl
    | some tr =>
      have hD : mfind id.node_index tr.data_ = none := by
        unfold MapById.atId at ha
        simp only [hT] at ha
        exact ha
      simp only [hD]
  · intro hnone
    cases hv : m.atId id with
    | none => rfl
    | some v =>
      exact absurd ((mem_toList_iff_atId hwf id v).mpr hv) (hnone v)

/-- Witness for C8: duplicate insert at (0,0) and trim at the absent (1,0). -/
theorem insert_duplicate_trim_missing_fatal_witness :
    (MapById.mk [((0 : Int), MapByIndex.mk true [((0 : Int), (7 : Nat))])]).Insert
        ⟨0, 0⟩ 9 = none ∧
    (MapById.mk [((0 : Int), MapByIndex.mk true [((0 : Int), (7 : Nat))])]).Trim
        ⟨1, 0⟩ = none :=
  ⟨(insert_duplicate_trim_missing_fatal
      (MapById.mk [((0 : Int), MapByIndex.mk true [((0 : Int), (7 : Nat))])])
      ⟨0, 0⟩ 9 (by decide)).1 7 (by decide),
    (insert_duplicate_trim_missing_fatal
      (MapById.mk [((0 : Int), MapByIndex.mk true [((0 : Int), (7 : Nat))])])
      ⟨1, 0⟩ 9 (by decide)).2.1 (by decide)⟩

/-- C6: a valid `Append(t, d)` inserts at position (largest existing position
in trajectory t) + 1, or at position 0 when the trajectory has no entries,
and returns that identifier; consequently, starting from a fresh container,
a sequence of n appends to one trajectory returns positions 0, 1, …, n-1 in
call order. -/
theorem append_assigns_next_position {α : Type} (t : Int) (ds : List α) (h0 : 0 ≤ t) :
    (∀ (m : MapById α) (d : α), m.WF → m.canAppend t = true →
      ∃ id m', m.Append t d = some (id, m') ∧ id.trajectory_id = t ∧
        m'.atId id = some d ∧
        (∀ i, (m.atId ⟨t, i⟩).isSome = true → i < id.node_index) ∧
        ((∃ i, (m.atId ⟨t, i⟩).isSome = true) →
          (m.atId ⟨t, id.node_index - 1⟩).isSome = true) ∧
        ((∀ i, m.atId ⟨t, i⟩ = none) → id.node_index = 0)) ∧
    (∃ m', appendAll (MapById.mk ([] : List (Int × MapByIndex α))) t ds =
      some ((List.range ds.length).map fun n => ⟨t, (n : Int)⟩, m')) := by
  constructor
  · intro m d hwf hc
    have hct : (getTraj m t).can_append_ = true := by rwa [canAppend_eq] at hc
    have htrwf := WF_getTraj hwf t
    have hfresh := mfind_nextIndex_none htrwf
    have he := memplace_of_find_none d hfresh
    refine ⟨_, _, Append_eq m t d h0 hct, rfl, ?_, ?_, ?_, ?_⟩
    · rw [atId_mk_mset_self_idx]
      show mfind (nextIndex (getTraj m t))
        (memplace (nextIndex (getTraj m t)) d (getTraj m t).data_).1 = some d
      rw [he]
      exact mfind_mset_self _ _ _
    · intro i hi
      obtain ⟨w, hw⟩ := Option.isSome_iff_exists.mp hi
      rw [atId_mk_eq] at hw
      show i < nextIndex (getTraj m t)
      exact keys_lt_nextIndex htrwf (i, w) (mfind_some_mem hw)
    · rintro ⟨i, hi⟩
      obtain ⟨w, hw⟩ := Option.isSome_iff_exists.mp hi
      rw [atId_mk_eq] at hw
      cases hL : (getTraj m t).data_.getLast? with
      | none =>
        exfalso
        rw [List.getLast?_eq_none_iff] at hL
        rw [hL] at hw
        simp [mfind] at hw
      | some p =>
        have hpm := List.mem_of_mem_getLast? hL
        have hfind : mfind p.1 (getTraj m t).data_ = some p.2 :=
          mem_mfind htrwf (by simpa using hpm)
        show (m.atId ⟨t, nextIndex (getTraj m t) - 1⟩).isSome = true
        rw [atId_mk_eq]
        have hidx : nextIndex (getTraj m t) - 1 = p.1 := by
          simp only [nextIndex, hL]
          omega
        rw [hidx, hfind]
        rfl
    · intro hall
      show nextIndex (getTraj m t) = 0
      cases hL : (getTraj m t).data_.getLast? with
      | none => simp [nextIndex, hL]
      | some p =>
        exfalso
        have hpm := List.mem_of_mem_getLast? hL
        have hfind : mfind p.1 (getTraj m t).data_ = some p.2 :=
          mem_mfind htrwf (by simpa using hpm)
        have hnone := hall p.1
        rw [atId_mk_eq, hfind] at hnone
        exact Option.noConfusion hnone
  · have hct : (getTraj (MapById.mk ([] : List (Int × MapByIndex α))) t).can_append_
        = true := by
      simp [getTraj, mfind]
    obtain ⟨m', hm'⟩ := appendAll_spec ds t h0 (MapById.mk []) WF_empty hct
    refine ⟨m', ?_⟩
    rw [hm']
    have hz : nextIndex (getTraj (MapById.mk ([] : List (Int × MapByIndex α))) t)
        = 0 := by
      simp [getTraj, mfind, nextIndex]
    simp only [Option.some_inj, Prod.mk.injEq]
    constructor
    · apply List.map_congr_left
      intro n hn
      rw [hz]
      simp
    · trivial

/-- Witness for C6: three appends into the fresh container return positions
0, 1, 2. -/
theorem append_assigns_next_position_witness :
    (∃ m', appendAll (MapById.mk ([] : List (Int × MapByIndex Nat))) 0 [10, 20, 30] =
      some ([⟨0, 0⟩, ⟨0, 1⟩, ⟨0, 2⟩], m')) ∧
    appendAll (MapById.mk ([] : List (Int × MapByIndex Nat))) 0 [10, 20, 30] =
      some ([⟨0, 0⟩, ⟨0, 1⟩, ⟨0, 2⟩],
        MapById.mk [((0 : Int), MapByIndex.mk true
          [((0 : Int), (10 : Nat)), (1, 20), (2, 30)])]) := by
  constructor
  · obtain ⟨m', hm'⟩ := (append_assigns_next_position 0 [(10 : Nat), 20, 30] (by decide)).2
    refine ⟨m', ?_⟩
    rw [hm']
    simp only [Option.some_inj, Prod.mk.injEq]
    exact ⟨by decide, trivial⟩
  · decide
